import Mathlib

/-!
Verification development for the LlamaDocIndexer repository
(`LlamaDocIndexer/indexer.py`, `LlamaDocIndexer/io/documents.py`,
`LlamaDocIndexer/utilities/patterns.py`).

The Python code is shallowly embedded as executable Lean functions:

* strings and paths are lists of characters (`Str`), with the POSIX
  separator `'/'` (the code runs `os.sep`-generically; we fix the POSIX
  case);
* file bytes are `List Nat`; a Python text string is represented by its
  UTF-8 byte sequence, so `read_plain_text` (which reads an
  eligible, UTF-8-decodable file with `errors="ignore"`) is the identity
  on the byte content;
* Python dicts (`self.menu`, `self.indices`, JSON objects) are
  association lists in insertion order; setting an existing key keeps
  its position, setting a fresh key appends, and `del` removes it;
* a raised Python exception is an `Except.error`; code without a
  surrounding `try` propagates it, exactly as the source does;
* the external collaborators (pypdf, xlrd, the llama-index embedding
  engine and summarizer) are parameters of the model (`Collab`): the
  indexer only passes their results around;
* `hashlib.md5(relative_path).hexdigest()` (the ContentId) is a fixed
  deterministic function of the relative path, injective per distinct
  relative path; we model it as the relative path itself, which has
  exactly those two properties that the indexer relies on;
* the filesystem seen by one `os.walk` traversal is a list of files,
  each given by its path components below the indexed root, its byte
  content and its modification time.  `os.walk` yields every file of
  the tree exactly once, so traversals carry a `Nodup` hypothesis on
  relative paths where needed.
-/

set_option maxRecDepth 10000
set_option synthInstance.maxHeartbeats 1000000

abbrev Str := List Char

/-! ## Generic string helpers (Python `str` operations used by the code) -/

/-- `headMatches needle s` is true when `needle` occurs at the start of `s`. -/
def headMatches : Str → Str → Bool
  | [], _ => true
  | _ :: _, [] => false
  | a :: as, b :: bs => decide (a = b) && headMatches as bs

/-- Python `needle in s` (substring containment). -/
def isSubstring (needle : Str) : Str → Bool
  | [] => needle.isEmpty
  | c :: s => headMatches needle (c :: s) || isSubstring needle s

/-- Python `s.replace(old, "")`: delete every occurrence of `old` from `s`,
scanning left to right over non-overlapping occurrences.  (Structural
recursion over a fuel counter that starts at the string length, which
the scan never exhausts, keeping the definition kernel-computable.) -/
def pyReplaceGo (old : Str) : Nat → Str → Str
  | _, [] => []
  | 0, s => s
  | fuel + 1, c :: s =>
    if old ≠ [] ∧ headMatches old (c :: s) = true then
      pyReplaceGo old fuel (List.drop old.length (c :: s))
    else
      c :: pyReplaceGo old fuel s

def pyReplace (old : Str) (s : Str) : Str := pyReplaceGo old s.length s

/-- Python `s.count(os.sep)` with `os.sep = "/"`. -/
def countSep (s : Str) : Nat := (s.filter (fun c => decide (c = '/'))).length

/-- Python `s.split(os.sep)` with `os.sep = "/"`. -/
def pySplitSep : Str → List Str
  | [] => [[]]
  | c :: rest =>
    let r := pySplitSep rest
    if c = '/' then [] :: r
    else
      match r with
      | [] => [[c]]
      | h :: t => (c :: h) :: t

/-- Index of the last occurrence of `c` in `s` (Python `s.rfind(c)`), or
`none` when absent. -/
def lastIndexOf (c : Char) : Str → Option Nat
  | [] => none
  | x :: xs =>
    match lastIndexOf c xs with
    | some i => some (i + 1)
    | none => if x = c then some 0 else none

/-- `os.path.basename`: the part of the path after the last separator. -/
def basename (p : Str) : Str :=
  match lastIndexOf '/' p with
  | none => p
  | some i => p.drop (i + 1)

/-- The extension component of `os.path.splitext(p)` (CPython
`genericpath._splitext`): the suffix from the last dot, provided that dot
lies after the last separator and the base name does not consist solely
of leading dots up to it. -/
def splitext_ext (p : Str) : Str :=
  match lastIndexOf '.' p with
  | none => []
  | some d =>
    let s : Int := match lastIndexOf '/' p with | none => -1 | some i => (i : Int)
    if s < (d : Int) ∧
        ((List.range d).any (fun i => decide (s < (i : Int)) && decide (p.getD i '.' ≠ '.'))) = true then
      p.drop d
    else []

/-- Python `str.lower` restricted to ASCII (file extensions in this code). -/
def toLowerStr (s : Str) : Str := s.map Char.toLower

/-! ## `io/documents.py` -/

/-- Validity of a byte sequence as UTF-8 (what `bytes.decode("utf-8")`
accepts: the well-formed encodings of scalar values U+0000..U+10FFFF,
surrogates excluded). -/
def utf8Cont (b : Nat) : Bool := decide (0x80 ≤ b) && decide (b ≤ 0xBF)

def utf8Decodable : List Nat → Bool
  | [] => true
  | b :: rest =>
    if b ≤ 0x7F then utf8Decodable rest
    else if 0xC2 ≤ b ∧ b ≤ 0xDF then
      match rest with
      | b1 :: r => utf8Cont b1 && utf8Decodable r
      | [] => false
    else if b = 0xE0 then
      match rest with
      | b1 :: b2 :: r =>
        decide (0xA0 ≤ b1) && decide (b1 ≤ 0xBF) && utf8Cont b2 && utf8Decodable r
      | _ => false
    else if (0xE1 ≤ b ∧ b ≤ 0xEC) ∨ b = 0xEE ∨ b = 0xEF then
      match rest with
      | b1 :: b2 :: r => utf8Cont b1 && utf8Cont b2 && utf8Decodable r
      | _ => false
    else if b = 0xED then
      match rest with
      | b1 :: b2 :: r =>
        decide (0x80 ≤ b1) && decide (b1 ≤ 0x9F) && utf8Cont b2 && utf8Decodable r
      | _ => false
    else if b = 0xF0 then
      match rest with
      | b1 :: b2 :: b3 :: r =>
        decide (0x90 ≤ b1) && decide (b1 ≤ 0xBF) && utf8Cont b2 && utf8Cont b3 && utf8Decodable r
      | _ => false
    else if 0xF1 ≤ b ∧ b ≤ 0xF3 then
      match rest with
      | b1 :: b2 :: b3 :: r => utf8Cont b1 && utf8Cont b2 && utf8Cont b3 && utf8Decodable r
      | _ => false
    else if b = 0xF4 then
      match rest with
      | b1 :: b2 :: b3 :: r =>
        decide (0x80 ≤ b1) && decide (b1 ≤ 0x8F) && utf8Cont b2 && utf8Cont b3 && utf8Decodable r
      | _ => false
    else false

/-- `is_plain_text`: the whole byte content must decode under UTF-8.
`none` models a file that cannot be read at all (the generic `except`
branch prints the error and returns `False`). -/
def is_plain_text : Option (List Nat) → Bool
  | none => false
  | some bs => utf8Decodable bs

/-- `read_plain_text` re-reads an (eligible, hence UTF-8-decodable) file
with `errors="ignore"`; on such a file the decode is total, and a text is
represented here by its UTF-8 bytes, so this is the identity. -/
def read_plain_text (content : List Nat) : List Nat := content

/-! ## `utilities/patterns.py` -/

/-- Body of the regex denoted by
`re.compile("^" + re.escape(w).replace("\\*", ".*") + "$")`: every
character of the wildcard is literal (case-sensitively, via
`re.escape`) except `*`, compiled to `.*`, and `.` without the `DOTALL`
flag matches any character other than `'\n'`.  (Structural recursion
over a fuel counter starting at the combined length, which the match
never exhausts, keeping the definition kernel-computable.) -/
def wildMatchGo : Nat → Str → Str → Bool
  | _, [], [] => true
  | _, [], _ :: _ => false
  | 0, _, _ => false
  | fuel + 1, '*' :: ps, s =>
    wildMatchGo fuel ps s ||
      (match s with
       | [] => false
       | c :: s2 => decide (¬c = '\n') && wildMatchGo fuel ('*' :: ps) s2)
  | _, _ :: _, [] => false
  | fuel + 1, p :: ps, c :: s => decide (p = c) && wildMatchGo fuel ps s

def wildCore (p s : Str) : Bool := wildMatchGo (p.length + s.length) p s

/-- `pattern.match(name)` for the compiled anchored pattern
(`wildcard_to_regex` plus `ignored_files_to_patterns` compile exactly
this): the body must span the whole name — except that `$`, since the
`MULTILINE` flag is not set, also matches just before a single trailing
newline, so a name ending in `'\n'` is also matched by spanning
everything before that final newline. -/
def wildMatch (p s : Str) : Bool :=
  wildCore p s || (decide (s.getLast? = some '\n') && wildCore p s.dropLast)

/-! ## Data model (`indexer.py` state) -/

/-- One `menu.json` value: `{"name": ..., "path": ..., "modified": ...}`.
`modified` is `os.path.getmtime`, kept as an integer (`-1` is the
fresh-entry sentinel written by `build`). -/
structure Entry where
  name : Str
  path : Str
  modified : Int
deriving DecidableEq

/-- One `self.indices` value: `{"summary": ..., "index": ...}` where the
index handle is the collaborator's opaque object (`none` before the first
successful embedding). -/
structure IndexVal where
  summary : Str
  index : Option Nat
deriving DecidableEq

/-- The in-memory state owned by `Indexer`: `self.menu` and `self.indices`,
both keyed by the ContentId (path hash). -/
structure State where
  menu : List (Str × Entry)
  indices : List (Str × IndexVal)
deriving DecidableEq

/-- A per-document on-disk artifact folder `<index_path>/<hash>/` holding
`data.json` (whose `summary` field is what `load_indices` reads back) and
the serialized sub-index blob that `load_index` restores. -/
structure LoadedArt where
  summary : Str
  index : Nat
deriving DecidableEq

/-- The persisted index folder: `menu.json` (absent before the first run)
and the artifact folders. -/
structure Disk where
  menuFile : Option (List (Str × Entry))
  artifacts : List (Str × LoadedArt)
deriving DecidableEq

/-- External collaborators (out of scope per the spec): pypdf text
extraction, xlrd cell concatenation, the embedding engine and the
summarizer.  `readPdf`/`readXlsx` may raise (`Except.error`). -/
structure Collab where
  readPdf : List Nat → Except Unit (List Nat)
  readXlsx : List Nat → Except Unit (List Nat)
  genIndex : List Nat → Nat
  genSummary : Nat → Str

/-- The configuration of an `Indexer` after `initiate` ran: `folder_path`
(no trailing separator), `ignored_folders` with `".indices"` already
appended, the compiled `ignored_patterns`, `depth`, and the optional
`types` allow-list. -/
structure Config where
  folder_path : Str
  ignored_folders : List Str
  ignored_patterns : List Str
  depth : Int
  types : Option (List Str)

/-- Python exceptions raised by the embedded code. -/
inductive PyErr where
  | valueError
  | keyError
  | runtimeError
deriving DecidableEq

/-- A file of the indexed tree as one `os.walk` pass presents it: its
path components below `folder_path` (last component is the file name),
its byte content, and its modification time. -/
structure FsFile where
  relParts : List Str
  content : List Nat
  mtime : Int

/-! ## Association lists (Python dicts in insertion order) -/

def alGet {α : Type} (k : Str) : List (Str × α) → Option α
  | [] => none
  | (k2, v) :: rest => if k2 = k then some v else alGet k rest

/-- `d[k] = v`: replace in place when the key exists, append otherwise. -/
def alSet {α : Type} (k : Str) (v : α) : List (Str × α) → List (Str × α)
  | [] => [(k, v)]
  | (k2, v2) :: rest => if k2 = k then (k, v) :: rest else (k2, v2) :: alSet k v rest

/-- `del d[k]`. -/
def alDel {α : Type} (k : Str) : List (Str × α) → List (Str × α)
  | [] => []
  | (k2, v2) :: rest => if k2 = k then alDel k rest else (k2, v2) :: alDel k rest

def keysOf {α : Type} (l : List (Str × α)) : List Str := l.map Prod.fst

/-! ## `indexer.py` -/

/-- The ContentId: `hashlib.md5(relative_path.encode()).hexdigest()`.
Modelled as the relative path itself — deterministic and injective per
distinct relative path, the only properties the indexer uses. -/
def path_hash (rel : Str) : Str := rel

/-- Join path components with the separator (`os.path.join` /
`os.path.relpath` on already-relative component lists). -/
def interSep : List Str → Str
  | [] => []
  | [p] => p
  | p :: ps => p ++ '/' :: interSep ps

def relPath (f : FsFile) : Str := interSep f.relParts

def filePath (cfg : Config) (f : FsFile) : Str :=
  cfg.folder_path ++ '/' :: relPath f

/-- The `root` argument `os.walk` pairs with this file. -/
def rootDir (cfg : Config) (f : FsFile) : Str :=
  match f.relParts.dropLast with
  | [] => cfg.folder_path
  | ds => cfg.folder_path ++ '/' :: interSep ds

/-- `Indexer.has_ignore_folder`. -/
def has_ignore_folder (cfg : Config) (path : Str) : Bool :=
  let p := if isSubstring cfg.folder_path path then pyReplace cfg.folder_path path else path
  (pySplitSep p).any (fun seg => decide (seg ∈ cfg.ignored_folders))

/-- The `self.types` gate of `is_supported_file` (note: plain membership,
no case folding). -/
def type_allowed (cfg : Config) (file_path : Str) : Bool :=
  match cfg.types with
  | none => true
  | some ts => decide (splitext_ext file_path ∈ ts)

/-- `Indexer.is_supported_file` (the file's byte content stands in for
opening the path; `none` = unreadable). -/
def is_supported_file (cfg : Config) (file_path : Str) (content : Option (List Nat)) : Bool :=
  if type_allowed cfg file_path = false then false
  else if cfg.ignored_patterns.any (fun p => wildMatch p (basename file_path)) then false
  else is_plain_text content

/-- `Indexer.read_text`.  The extension test is on the lower-cased
extension; a file that is neither UTF-8 text nor `.pdf`/`.xlsx` raises
`ValueError("Unsupported file type: ...")`.  A read failure inside a
collaborator propagates. -/
def read_text (collab : Collab) (file_path : Str) (content : Option (List Nat)) :
    Except PyErr (List Nat) :=
  if is_plain_text content = true then
    Except.ok (read_plain_text (content.getD []))
  else if toLowerStr (splitext_ext file_path) = ('.' :: ['p', 'd', 'f']) then
    match content with
    | none => Except.error PyErr.valueError
    | some bs =>
      match collab.readPdf bs with
      | Except.ok t => Except.ok t
      | Except.error _ => Except.error PyErr.valueError
  else if toLowerStr (splitext_ext file_path) = ('.' :: ['x', 'l', 's', 'x']) then
    match content with
    | none => Except.error PyErr.valueError
    | some bs =>
      match collab.readXlsx bs with
      | Except.ok t => Except.ok t
      | Except.error _ => Except.error PyErr.valueError
  else Except.error PyErr.valueError

/-! ### `Indexer.build` -/

/-- One unit of deferred work collected by the walk (`tasks.append`). -/
structure BuildTask where
  path_hash : Str
  name : Str
  path : Str
  text : List Nat
deriving DecidableEq

/-- The output of `run_embedding_task`. -/
structure TaskResult where
  path_hash : Str
  name : Str
  path : Str
  text : List Nat
  summary : Str
  index : Nat
deriving DecidableEq

/-- The loop state of the walk in `build`: the shared maps, the task
list, and the `update` flag. -/
structure PassAcc where
  st : State
  tasks : List BuildTask
  update : Bool
deriving DecidableEq

/-- Lines 176–186 of `indexer.py`: when the hash is not in
`self.indices`, register a fresh menu entry (sentinel `modified = -1`)
and a fresh indices record. -/
def ensureRegistered (f : FsFile) (st : State) : State :=
  let ph := path_hash (relPath f)
  if (alGet ph st.indices).isNone then
    { menu := alSet ph ⟨f.relParts.getLastD [], relPath f, -1⟩ st.menu,
      indices := alSet ph ⟨[], none⟩ st.indices }
  else st

/-- The body of the walk loop after the three eligibility gates passed
(lines 160–212): hash the relative path, register if fresh, skip when the
stored modification time is unchanged, otherwise advance it, extract the
text, drop the document entirely on empty text, and otherwise append an
embedding task. -/
def processEligible (cfg : Config) (collab : Collab) (acc : PassAcc) (f : FsFile) :
    Except PyErr PassAcc :=
  let ph := path_hash (relPath f)
  let st1 := ensureRegistered f acc.st
  match alGet ph st1.menu with
  | none => Except.error PyErr.keyError
  | some entry =>
    if f.mtime = entry.modified then Except.ok { acc with st := st1 }
    else
      let st2 := { st1 with menu := alSet ph { entry with modified := f.mtime } st1.menu }
      match read_text collab (filePath cfg f) (some f.content) with
      | Except.error e => Except.error e
      | Except.ok text =>
        if text.length = 0 then
          Except.ok ⟨⟨alDel ph st2.menu, alDel ph st2.indices⟩, acc.tasks, acc.update⟩
        else
          Except.ok ⟨st2, acc.tasks ++ [⟨ph, f.relParts.getLastD [], relPath f, text⟩], true⟩

/-- One iteration of the walk (lines 147–212): the ignored-folder check
on the file's directory, `is_supported_file`, and the depth bound
`file_path.replace(folder_path, "").count(os.sep) > depth`, then
`processEligible`. -/
def processFile (cfg : Config) (collab : Collab) (acc : PassAcc) (f : FsFile) :
    Except PyErr PassAcc :=
  if has_ignore_folder cfg (rootDir cfg f) = true then Except.ok acc
  else if is_supported_file cfg (filePath cfg f) (some f.content) = false then Except.ok acc
  else if (countSep (pyReplace cfg.folder_path (filePath cfg f)) : Int) > cfg.depth then
    Except.ok acc
  else processEligible cfg collab acc f

def processFiles (cfg : Config) (collab : Collab) : List FsFile → PassAcc → Except PyErr PassAcc
  | [], acc => Except.ok acc
  | f :: fs, acc =>
    match processFile cfg collab acc f with
    | Except.error e => Except.error e
    | Except.ok acc2 => processFiles cfg collab fs acc2

/-- `Indexer.run_embedding_task`: build the sub-index from the text, then
summarize it. -/
def run_embedding_task (collab : Collab) (t : BuildTask) : TaskResult :=
  let idx := collab.genIndex t.text
  ⟨t.path_hash, t.name, t.path, t.text, collab.genSummary idx, idx⟩

/-- `Indexer.save_embedding_data`: write `data.json` and the serialized
index into the artifact folder and refresh `self.indices[path_hash]`.
`run_embedding_task` never copies the generated summary into
`task["data"]` (its `task["data"] = task["data"]` line is a no-op), so
the summary persisted in `data.json` is the empty string the walk put
there, while the in-memory record gets the generated summary. -/
def save_embedding_data (acc : State × Disk) (r : TaskResult) : State × Disk :=
  ({ acc.1 with indices := alSet r.path_hash ⟨r.summary, some r.index⟩ acc.1.indices },
   { acc.2 with artifacts := alSet r.path_hash ⟨[], r.index⟩ acc.2.artifacts })

/-- The result of one `build` pass: its return value and the state and
disk afterwards. -/
structure BuildOut where
  changed : Bool
  st : State
  disk : Disk
deriving DecidableEq

/-- `Indexer.build`: walk every file, collect tasks, return `False`
when there are none, otherwise run the tasks, merge the results
sequentially, and rewrite `menu.json` when `update` is set.  (The
thread pool computes independent pure task results whose merge is
sequential, so the map over `tasks` is semantically faithful.) -/
def build (cfg : Config) (collab : Collab) (fs : List FsFile) (st : State) (disk : Disk) :
    Except PyErr BuildOut :=
  match processFiles cfg collab fs ⟨st, [], false⟩ with
  | Except.error e => Except.error e
  | Except.ok acc =>
    if acc.tasks = [] then Except.ok ⟨false, acc.st, disk⟩
    else
      let results := acc.tasks.map (run_embedding_task collab)
      let merged := results.foldl save_embedding_data (acc.st, disk)
      if acc.update then
        Except.ok ⟨acc.update, merged.1, { merged.2 with menuFile := some merged.1.menu }⟩
      else Except.ok ⟨acc.update, merged.1, merged.2⟩

/-! ### `Indexer.load_indices` and construction -/

/-- The loop of `load_indices`, iterating over the keys of `self.menu`.
CPython's dict iterator raises
`RuntimeError("dictionary changed size during iteration")` on the next
`__next__` call (including the final, would-be-`StopIteration` one) once
the dict's size changed, so the loop carries a `mutated` flag that turns
the following step into that error. -/
def loadGo (arts : List (Str × LoadedArt)) :
    List (Str × Entry) → Bool → State → Except PyErr State
  | [], mutated, st => if mutated then Except.error PyErr.runtimeError else Except.ok st
  | (ph, _) :: rest, mutated, st =>
    if mutated then Except.error PyErr.runtimeError
    else
      match alGet ph arts with
      | none => loadGo arts rest true { st with menu := alDel ph st.menu }
      | some a =>
        loadGo arts rest mutated
          { st with indices := alSet ph ⟨a.summary, some a.index⟩ st.indices }

/-- `Indexer.load_indices`, run on the menu deserialized from
`menu.json`: entries whose `data.json` is missing are deleted from
`self.menu` (which, mid-iteration, makes the next iterator step raise),
all others get their artifact loaded into `self.indices`. -/
def load_indices (disk : Disk) (menu : List (Str × Entry)) : Except PyErr State :=
  loadGo disk.artifacts menu false ⟨menu, []⟩

/-- `Indexer.initiate` (directory creation aside): read `menu.json` if it
exists, otherwise create it empty; then `load_indices`. -/
def initiate (disk : Disk) : Except PyErr (State × Disk) :=
  match disk.menuFile with
  | some m => (load_indices disk m).map (fun st => (st, disk))
  | none => (load_indices disk []).map (fun st => (st, { disk with menuFile := some [] }))

/-! ### Query composition -/

/-- An `IndexNode` of the composed `SummaryIndex`: labeled by the
ContentId, annotated with the stored summary, wrapping the sub-index's
retriever. -/
structure IndexNode where
  index_id : Str
  text : Str
  obj : Nat
deriving DecidableEq

def engineNodes (st : State) : List Str → Except PyErr (List IndexNode)
  | [] => Except.ok []
  | ph :: rest =>
    match alGet ph st.indices with
    | none => Except.error PyErr.keyError
    | some v =>
      match v.index with
      | none => engineNodes st rest
      | some h =>
        match engineNodes st rest with
        | Except.error e => Except.error e
        | Except.ok ns => Except.ok (⟨ph, v.summary, h⟩ :: ns)

/-- `Indexer.create_query_engine` with an explicit path list: one
retriever node per path hash whose sub-index exists, composed into a
`SummaryIndex` query engine (modelled by its node list). -/
def create_query_engine (st : State) (paths : List Str) : Except PyErr (List IndexNode) :=
  engineNodes st (paths.map path_hash)

/-- `Indexer.get_file_engine`: `ValueError("File not indexed: ...")`
when the path's hash is not a key of `self.menu`, otherwise the engine
scoped to that single path. -/
def get_file_engine (st : State) (file_path : Str) : Except PyErr (List IndexNode) :=
  if (alGet (path_hash file_path) st.menu).isNone then Except.error PyErr.valueError
  else create_query_engine st [file_path]

/-! ## Definitions taken from the spec's words (for divergence claims) -/

/-- Modelled from the spec: "a file whose path, measured in
path-separator count below the indexed root, exceeds a configured
maximum depth is excluded" — the path below the indexed root is the
absolute path with the root prefix stripped. -/
def specPathBelowRoot (root fp : Str) : Str := fp.drop root.length

def specSepCountBelowRoot (root fp : Str) : Nat := countSep (specPathBelowRoot root fp)

/-- Modelled from the claim's words, for comparison with the code's
compiled regex: "matches that pattern as an exact, case-sensitive,
full-name match (with `*` matching any run of characters)" — here `*`
may match any characters at all, newline included, and the whole name
must be spanned exactly. -/
def specWildMatchGo : Nat → Str → Str → Bool
  | _, [], [] => true
  | _, [], _ :: _ => false
  | 0, _, _ => false
  | fuel + 1, '*' :: ps, s =>
    specWildMatchGo fuel ps s ||
      (match s with
       | [] => false
       | _ :: s2 => specWildMatchGo fuel ('*' :: ps) s2)
  | _, _ :: _, [] => false
  | fuel + 1, p :: ps, c :: s => decide (p = c) && specWildMatchGo fuel ps s

def specWildMatch (p s : Str) : Bool := specWildMatchGo (p.length + s.length) p s

/-! ## Lemmas about the dict operations -/

theorem alGet_alSet_self {α : Type} (k : Str) (v : α) (l : List (Str × α)) :
    alGet k (alSet k v l) = some v := by
  induction l with
  | nil => simp [alGet, alSet]
  | cons p rest ih =>
    obtain ⟨k2, v2⟩ := p
    by_cases h : k2 = k
    · simp [alSet, h, alGet]
    · simp [alSet, h, alGet, ih]

theorem alGet_alSet_ne {α : Type} {k k2 : Str} (v : α) (l : List (Str × α)) (h : k ≠ k2) :
    alGet k (alSet k2 v l) = alGet k l := by
  have hk : ¬k2 = k := fun hh => h hh.symm
  induction l with
  | nil => simp [alSet, alGet, hk]
  | cons p rest ih =>
    obtain ⟨k3, v3⟩ := p
    by_cases h3 : k3 = k2
    · subst h3
      simp [alSet, alGet, hk]
    · by_cases h4 : k3 = k
      · simp [alSet, h3, alGet, h4, h]
      · simp [alSet, h3, alGet, h4, ih]

theorem alGet_alDel_self {α : Type} (k : Str) (l : List (Str × α)) :
    alGet k (alDel k l) = none := by
  induction l with
  | nil => simp [alGet, alDel]
  | cons p rest ih =>
    obtain ⟨k2, v2⟩ := p
    by_cases h : k2 = k
    · simp [alDel, h, ih]
    · simp [alDel, h, alGet, ih]

theorem alGet_alDel_ne {α : Type} {k k2 : Str} (l : List (Str × α)) (h : k ≠ k2) :
    alGet k (alDel k2 l) = alGet k l := by
  have hk : ¬k2 = k := fun hh => h hh.symm
  induction l with
  | nil => simp [alDel]
  | cons p rest ih =>
    obtain ⟨k3, v3⟩ := p
    by_cases h3 : k3 = k2
    · subst h3
      simp [alDel, alGet, hk, ih]
    · by_cases h4 : k3 = k
      · simp [alDel, h3, alGet, h4, h]
      · simp [alDel, h3, alGet, h4, ih]

theorem alGet_isSome_iff {α : Type} (k : Str) (l : List (Str × α)) :
    (alGet k l).isSome = true ↔ k ∈ keysOf l := by
  induction l with
  | nil => simp [alGet, keysOf]
  | cons p rest ih =>
    obtain ⟨k2, v2⟩ := p
    by_cases h : k2 = k
    · simp [alGet, h, keysOf]
    · have hk : ¬k = k2 := fun hh => h hh.symm
      simp [alGet, h, keysOf, ih, hk]

theorem alGet_eq_none_iff {α : Type} (k : Str) (l : List (Str × α)) :
    alGet k l = none ↔ k ∉ keysOf l := by
  rw [← alGet_isSome_iff k l]
  cases alGet k l <;> simp

theorem keysOf_alSet_mem {α : Type} {k : Str} (v : α) {l : List (Str × α)}
    (h : k ∈ keysOf l) : keysOf (alSet k v l) = keysOf l := by
  induction l with
  | nil => simp [keysOf] at h
  | cons p rest ih =>
    obtain ⟨k2, v2⟩ := p
    by_cases h2 : k2 = k
    · simp [alSet, h2, keysOf]
    · have hmem : k ∈ keysOf rest := by
        simp only [keysOf, List.map_cons, List.mem_cons] at h
        rcases h with h | h
        · exact absurd h.symm h2
        · exact h
      have ih2 := ih hmem
      simp only [keysOf] at ih2
      simp [alSet, h2, keysOf, ih2]

theorem keysOf_alSet_notMem {α : Type} {k : Str} (v : α) {l : List (Str × α)}
    (h : k ∉ keysOf l) : keysOf (alSet k v l) = keysOf l ++ [k] := by
  induction l with
  | nil => simp [alSet, keysOf]
  | cons p rest ih =>
    obtain ⟨k2, v2⟩ := p
    simp only [keysOf, List.map_cons, List.mem_cons] at h
    push_neg at h
    have h2 : ¬k2 = k := fun hh => h.1 hh.symm
    have ih2 := ih h.2
    simp only [keysOf] at ih2
    simp [alSet, h2, keysOf, ih2]

theorem alSet_of_notMem {α : Type} {k : Str} (v : α) {l : List (Str × α)}
    (h : k ∉ keysOf l) : alSet k v l = l ++ [(k, v)] := by
  induction l with
  | nil => simp [alSet]
  | cons p rest ih =>
    obtain ⟨k2, v2⟩ := p
    simp only [keysOf, List.map_cons, List.mem_cons] at h
    push_neg at h
    have h2 : ¬k2 = k := fun hh => h.1 hh.symm
    simp [alSet, h2, ih h.2]

theorem alDel_of_notMem {α : Type} {k : Str} {l : List (Str × α)}
    (h : k ∉ keysOf l) : alDel k l = l := by
  induction l with
  | nil => simp [alDel]
  | cons p rest ih =>
    obtain ⟨k2, v2⟩ := p
    simp only [keysOf, List.map_cons, List.mem_cons] at h
    push_neg at h
    have h2 : ¬k2 = k := fun hh => h.1 hh.symm
    simp [alDel, h2, ih h.2]

theorem alDel_alSet {α : Type} (k : Str) (v : α) (l : List (Str × α)) :
    alDel k (alSet k v l) = alDel k l := by
  induction l with
  | nil => simp [alSet, alDel]
  | cons p rest ih =>
    obtain ⟨k2, v2⟩ := p
    by_cases h : k2 = k
    · simp [alSet, h, alDel]
    · simp [alSet, h, alDel, ih]

theorem keysOf_alDel {α : Type} (k : Str) (l : List (Str × α)) :
    keysOf (alDel k l) = (keysOf l).filter (fun x => !decide (x = k)) := by
  induction l with
  | nil => simp [alDel, keysOf]
  | cons p rest ih =>
    obtain ⟨k2, v2⟩ := p
    have ih2 := ih
    simp only [keysOf] at ih2
    by_cases h : k2 = k
    · simp [alDel, h, keysOf, ih2]
    · simp [alDel, h, keysOf, ih2]

/-! ## Invariants of the walk -/

/-- `self.menu` and `self.indices` have the same keys in the same
order. -/
def keysEq (st : State) : Prop := keysOf st.menu = keysOf st.indices

/-- The three gates of the walk loop that skip a file before it touches
any state. -/
def skippedFile (cfg : Config) (f : FsFile) : Prop :=
  has_ignore_folder cfg (rootDir cfg f) = true ∨
  is_supported_file cfg (filePath cfg f) (some f.content) = false ∨
  (countSep (pyReplace cfg.folder_path (filePath cfg f)) : Int) > cfg.depth

/-- The situation of one file after a completed pass: either the walk
skips it, or its registry entry stores exactly its current modification
time (and its indices record exists), or it was dropped for empty
content (and then its content is the empty byte string, so a later pass
drops it again). -/
def Good (cfg : Config) (f : FsFile) (st : State) : Prop :=
  skippedFile cfg f ∨
  (∃ e, alGet (path_hash (relPath f)) st.menu = some e ∧ e.modified = f.mtime ∧
        (alGet (path_hash (relPath f)) st.indices).isSome = true) ∨
  (alGet (path_hash (relPath f)) st.menu = none ∧
   alGet (path_hash (relPath f)) st.indices = none ∧ f.content = [])

theorem Good_stable {cfg : Config} {f : FsFile} {st st2 : State} (hg : Good cfg f st)
    (hm : alGet (path_hash (relPath f)) st2.menu = alGet (path_hash (relPath f)) st.menu)
    (hi : (alGet (path_hash (relPath f)) st2.indices).isSome
        = (alGet (path_hash (relPath f)) st.indices).isSome) :
    Good cfg f st2 := by
  rcases hg with hg | ⟨e, he, hmod, hsome⟩ | ⟨hn1, hn2, hc⟩
  · exact Or.inl hg
  · exact Or.inr (Or.inl ⟨e, hm ▸ he, hmod, hi ▸ hsome⟩)
  · refine Or.inr (Or.inr ⟨hm ▸ hn1, ?_, hc⟩)
    have : (alGet (path_hash (relPath f)) st2.indices).isSome = false := by
      rw [hi, hn2]; rfl
    cases hh : alGet (path_hash (relPath f)) st2.indices
    · rfl
    · rw [hh] at this; simp at this

theorem is_supported_plain {cfg : Config} {fp : Str} {c : Option (List Nat)}
    (h : is_supported_file cfg fp c = true) : is_plain_text c = true := by
  unfold is_supported_file at h
  split_ifs at h
  exact h

theorem read_text_plain (collab : Collab) (fp : Str) {c : Option (List Nat)}
    (h : is_plain_text c = true) :
    read_text collab fp c = Except.ok (c.getD []) := by
  unfold read_text
  rw [if_pos h]
  rfl

theorem keysEq_menu_none {st : State} {k : Str} (hke : keysEq st)
    (h : alGet k st.indices = none) : alGet k st.menu = none := by
  rw [alGet_eq_none_iff] at h ⊢
  rw [keysEq] at hke
  rw [hke]
  exact h

theorem keysEq_menu_isSome {st : State} {k : Str} (hke : keysEq st)
    (h : (alGet k st.indices).isSome = true) : (alGet k st.menu).isSome = true := by
  rw [alGet_isSome_iff] at h ⊢
  rw [keysEq] at hke
  rw [hke]
  exact h

theorem ensureRegistered_of_none {f : FsFile} {st : State}
    (h : alGet (path_hash (relPath f)) st.indices = none) :
    ensureRegistered f st =
      { menu := alSet (path_hash (relPath f)) ⟨f.relParts.getLastD [], relPath f, -1⟩ st.menu,
        indices := alSet (path_hash (relPath f)) ⟨[], none⟩ st.indices } := by
  simp only [ensureRegistered]
  rw [h]
  rfl

theorem ensureRegistered_of_isSome {f : FsFile} {st : State}
    (h : (alGet (path_hash (relPath f)) st.indices).isSome = true) :
    ensureRegistered f st = st := by
  cases hh : alGet (path_hash (relPath f)) st.indices with
  | none => rw [hh] at h; simp at h
  | some v =>
    simp only [ensureRegistered]
    rw [hh]
    rfl

/-- `processFile` never raises when `menu` and `indices` are in sync, and
its effect on the shared state touches only the file's own ContentId:
lookups at other keys are unchanged, key sync is preserved, exactly the
old tasks survive (possibly plus one task carrying this file's hash,
whose indices record exists), and afterwards the file is `Good`. -/
theorem processFile_spec (cfg : Config) (collab : Collab) (acc : PassAcc) (f : FsFile)
    (hke : keysEq acc.st) :
    ∃ acc2, processFile cfg collab acc f = Except.ok acc2 ∧
      keysEq acc2.st ∧
      (∀ k, k ≠ path_hash (relPath f) →
        alGet k acc2.st.menu = alGet k acc.st.menu ∧
        alGet k acc2.st.indices = alGet k acc.st.indices) ∧
      (∀ t, t ∈ acc.tasks → t ∈ acc2.tasks) ∧
      (∀ t, t ∈ acc2.tasks →
        t ∈ acc.tasks ∨
          (t.path_hash = path_hash (relPath f) ∧
           (alGet t.path_hash acc2.st.indices).isSome = true)) ∧
      Good cfg f acc2.st ∧
      (acc2.tasks = acc.tasks → acc2.update = acc.update) := by
  by_cases h1 : has_ignore_folder cfg (rootDir cfg f) = true
  · refine ⟨acc, ?_, hke, ?_, ?_, ?_, Or.inl (Or.inl h1), ?_⟩
    · simp [processFile, h1]
    · intro k _; exact ⟨rfl, rfl⟩
    · intro t ht; exact ht
    · intro t ht; exact Or.inl ht
    · intro _; rfl
  by_cases h2 : is_supported_file cfg (filePath cfg f) (some f.content) = false
  · refine ⟨acc, ?_, hke, ?_, ?_, ?_, Or.inl (Or.inr (Or.inl h2)), ?_⟩
    · simp [processFile, h1, h2]
    · intro k _; exact ⟨rfl, rfl⟩
    · intro t ht; exact ht
    · intro t ht; exact Or.inl ht
    · intro _; rfl
  by_cases h3 : (countSep (pyReplace cfg.folder_path (filePath cfg f)) : Int) > cfg.depth
  · refine ⟨acc, ?_, hke, ?_, ?_, ?_, Or.inl (Or.inr (Or.inr h3)), ?_⟩
    · simp [processFile, h1, h2, h3]
    · intro k _; exact ⟨rfl, rfl⟩
    · intro t ht; exact ht
    · intro t ht; exact Or.inl ht
    · intro _; rfl
  -- the three gates pass: the eligible core runs
  have h2t : is_supported_file cfg (filePath cfg f) (some f.content) = true := by
    revert h2; cases is_supported_file cfg (filePath cfg f) (some f.content) <;> simp
  have hplain : is_plain_text (some f.content) = true := is_supported_plain h2t
  have hpe : processFile cfg collab acc f = processEligible cfg collab acc f := by
    simp [processFile, h1, h2, h3]
  have hread : read_text collab (filePath cfg f) (some f.content) = Except.ok f.content :=
    read_text_plain collab (filePath cfg f) hplain
  by_cases h4 : alGet (path_hash (relPath f)) acc.st.indices = none
  · -- fresh ContentId: a menu entry and an indices record are created
    have hmn : alGet (path_hash (relPath f)) acc.st.menu = none := keysEq_menu_none hke h4
    have hmnotmem : path_hash (relPath f) ∉ keysOf acc.st.menu := (alGet_eq_none_iff _ _).mp hmn
    have hinotmem : path_hash (relPath f) ∉ keysOf acc.st.indices := (alGet_eq_none_iff _ _).mp h4
    have hreg := ensureRegistered_of_none h4
    by_cases h5 : f.mtime = (-1 : Int)
    · -- the sentinel equals the mtime: the file is skipped right after registration
      refine ⟨⟨ensureRegistered f acc.st, acc.tasks, acc.update⟩, ?_, ?_, ?_, ?_, ?_, ?_, ?_⟩
      · rw [hpe]
        unfold processEligible
        rw [hreg]
        simp only [alGet_alSet_self]
        rw [if_pos h5]
      · show keysEq (ensureRegistered f acc.st)
        rw [hreg]
        show keysOf (alSet _ _ acc.st.menu) = keysOf (alSet _ _ acc.st.indices)
        rw [keysOf_alSet_notMem _ hmnotmem, keysOf_alSet_notMem _ hinotmem, hke]
      · intro k hk
        rw [hreg]
        exact ⟨alGet_alSet_ne _ _ hk, alGet_alSet_ne _ _ hk⟩
      · intro t ht; exact ht
      · intro t ht; exact Or.inl ht
      · refine Or.inr (Or.inl ⟨⟨f.relParts.getLastD [], relPath f, -1⟩, ?_, ?_, ?_⟩)
        · rw [hreg]; exact alGet_alSet_self _ _ _
        · simpa using h5.symm
        · rw [hreg]
          simp [alGet_alSet_self]
      · intro _; rfl
    · -- rebuild path for a fresh file
      by_cases h6 : f.content = []
      · -- empty text: the provisional entry is removed again
        refine ⟨⟨⟨acc.st.menu, acc.st.indices⟩, acc.tasks, acc.update⟩, ?_, hke, ?_, ?_, ?_, ?_, ?_⟩
        · rw [hpe]
          unfold processEligible
          rw [hreg]
          simp only [alGet_alSet_self]
          rw [if_neg h5]
          simp only [hread]
          have hlen : f.content.length = 0 := by rw [h6]; rfl
          rw [if_pos hlen, alDel_alSet, alDel_alSet, alDel_alSet,
            alDel_of_notMem hmnotmem, alDel_of_notMem hinotmem]
        · intro k _; exact ⟨rfl, rfl⟩
        · intro t ht; exact ht
        · intro t ht; exact Or.inl ht
        · exact Or.inr (Or.inr ⟨hmn, h4, h6⟩)
        · intro _; rfl
      · -- nonempty text: the entry gets the new mtime and a task is queued
        have h6len : ¬f.content.length = 0 := by
          intro hh; exact h6 (List.length_eq_zero.mp hh)
        refine ⟨⟨⟨alSet (path_hash (relPath f))
            ⟨f.relParts.getLastD [], relPath f, f.mtime⟩
            (alSet (path_hash (relPath f)) ⟨f.relParts.getLastD [], relPath f, -1⟩ acc.st.menu),
            alSet (path_hash (relPath f)) ⟨[], none⟩ acc.st.indices⟩,
          acc.tasks ++ [⟨path_hash (relPath f), f.relParts.getLastD [], relPath f, f.content⟩],
          true⟩, ?_, ?_, ?_, ?_, ?_, ?_, ?_⟩
        · rw [hpe]
          unfold processEligible
          rw [hreg]
          simp only [alGet_alSet_self]
          rw [if_neg h5]
          simp only [hread]
          rw [if_neg h6len]
        · show keysOf (alSet _ _ (alSet _ _ acc.st.menu)) = keysOf (alSet _ _ acc.st.indices)
          have hm1 : path_hash (relPath f) ∈
              keysOf (alSet (path_hash (relPath f))
                ({ name := f.relParts.getLastD [], path := relPath f, modified := -1 } : Entry)
                acc.st.menu) := by
            rw [← alGet_isSome_iff, alGet_alSet_self]
            rfl
          rw [keysOf_alSet_mem _ hm1, keysOf_alSet_notMem _ hmnotmem,
            keysOf_alSet_notMem _ hinotmem, hke]
        · intro k hk
          constructor
          · rw [alGet_alSet_ne _ _ hk, alGet_alSet_ne _ _ hk]
          · rw [alGet_alSet_ne _ _ hk]
        · intro t ht; exact List.mem_append_left _ ht
        · intro t ht
          rcases List.mem_append.mp ht with ht | ht
          · exact Or.inl ht
          · rcases List.mem_singleton.mp ht with rfl
            refine Or.inr ⟨rfl, ?_⟩
            simp [alGet_alSet_self]
        · refine Or.inr (Or.inl ⟨⟨f.relParts.getLastD [], relPath f, f.mtime⟩, ?_, rfl, ?_⟩)
          · exact alGet_alSet_self _ _ _
          · simp [alGet_alSet_self]
        · intro habs
          exfalso
          have := congrArg List.length habs
          simp at this
  · -- known ContentId
    have h4s : (alGet (path_hash (relPath f)) acc.st.indices).isSome = true := by
      cases hh : alGet (path_hash (relPath f)) acc.st.indices
      · exact absurd hh h4
      · rfl
    have hreg := ensureRegistered_of_isSome h4s
    have hms : (alGet (path_hash (relPath f)) acc.st.menu).isSome = true :=
      keysEq_menu_isSome hke h4s
    obtain ⟨e, he⟩ : ∃ e, alGet (path_hash (relPath f)) acc.st.menu = some e := by
      cases hh : alGet (path_hash (relPath f)) acc.st.menu
      · rw [hh] at hms; simp at hms
      · exact ⟨_, rfl⟩
    have hmmem : path_hash (relPath f) ∈ keysOf acc.st.menu := (alGet_isSome_iff _ _).mp hms
    by_cases h5 : f.mtime = e.modified
    · -- unchanged modification time: skipped
      refine ⟨⟨acc.st, acc.tasks, acc.update⟩, ?_, hke, ?_, ?_, ?_, ?_, ?_⟩
      · rw [hpe]
        unfold processEligible
        rw [hreg]
        simp only [he]
        rw [if_pos h5]
      · intro k _; exact ⟨rfl, rfl⟩
      · intro t ht; exact ht
      · intro t ht; exact Or.inl ht
      · exact Or.inr (Or.inl ⟨e, he, h5.symm, h4s⟩)
      · intro _; rfl
    · by_cases h6 : f.content = []
      · -- empty text on a rebuild: the document is dropped
        refine ⟨⟨⟨alDel (path_hash (relPath f)) acc.st.menu,
            alDel (path_hash (relPath f)) acc.st.indices⟩, acc.tasks, acc.update⟩,
            ?_, ?_, ?_, ?_, ?_, ?_, ?_⟩
        · rw [hpe]
          unfold processEligible
          rw [hreg]
          simp only [he]
          rw [if_neg h5]
          simp only [hread]
          have hlen : f.content.length = 0 := by rw [h6]; rfl
          rw [if_pos hlen, alDel_alSet]
        · show keysOf (alDel _ acc.st.menu) = keysOf (alDel _ acc.st.indices)
          rw [keysOf_alDel, keysOf_alDel, hke]
        · intro k hk
          exact ⟨alGet_alDel_ne _ hk, alGet_alDel_ne _ hk⟩
        · intro t ht; exact ht
        · intro t ht; exact Or.inl ht
        · exact Or.inr (Or.inr ⟨alGet_alDel_self _ _, alGet_alDel_self _ _, h6⟩)
        · intro _; rfl
      · -- rebuild with fresh text: entry updated and task queued
        have h6len : ¬f.content.length = 0 := by
          intro hh; exact h6 (List.length_eq_zero.mp hh)
        refine ⟨⟨⟨alSet (path_hash (relPath f)) { e with modified := f.mtime } acc.st.menu,
            acc.st.indices⟩,
          acc.tasks ++ [⟨path_hash (relPath f), f.relParts.getLastD [], relPath f, f.content⟩],
          true⟩, ?_, ?_, ?_, ?_, ?_, ?_, ?_⟩
        · rw [hpe]
          unfold processEligible
          rw [hreg]
          simp only [he]
          rw [if_neg h5]
          simp only [hread]
          rw [if_neg h6len]
        · show keysOf (alSet _ _ acc.st.menu) = keysOf acc.st.indices
          rw [keysOf_alSet_mem _ hmmem, hke]
        · intro k hk
          exact ⟨alGet_alSet_ne _ _ hk, rfl⟩
        · intro t ht; exact List.mem_append_left _ ht
        · intro t ht
          rcases List.mem_append.mp ht with ht | ht
          · exact Or.inl ht
          · rcases List.mem_singleton.mp ht with rfl
            exact Or.inr ⟨rfl, h4s⟩
        · refine Or.inr (Or.inl ⟨{ e with modified := f.mtime }, alGet_alSet_self _ _ _, rfl, h4s⟩)
        · intro habs
          exfalso
          have := congrArg List.length habs
          simp at this

theorem processFile_skipped (cfg : Config) (collab : Collab) (acc : PassAcc) (f : FsFile)
    (hs : skippedFile cfg f) : processFile cfg collab acc f = Except.ok acc := by
  unfold processFile
  by_cases h1 : has_ignore_folder cfg (rootDir cfg f) = true
  · rw [if_pos h1]
  rw [if_neg h1]
  by_cases h2 : is_supported_file cfg (filePath cfg f) (some f.content) = false
  · rw [if_pos h2]
  rw [if_neg h2]
  by_cases h3 : (countSep (pyReplace cfg.folder_path (filePath cfg f)) : Int) > cfg.depth
  · rw [if_pos h3]
  rcases hs with hs | hs | hs
  · exact absurd hs h1
  · exact absurd hs h2
  · exact absurd hs h3

/-- On a `Good` file, `processFile` leaves the task list and the update
flag unchanged (no re-indexing happens), and touches state at most at
the file's own ContentId. -/
theorem processFile_good (cfg : Config) (collab : Collab) (acc : PassAcc) (f : FsFile)
    (hg : Good cfg f acc.st) :
    ∃ st2, processFile cfg collab acc f = Except.ok ⟨st2, acc.tasks, acc.update⟩ ∧
      (∀ k, k ≠ path_hash (relPath f) →
        alGet k st2.menu = alGet k acc.st.menu ∧
        alGet k st2.indices = alGet k acc.st.indices) := by
  by_cases hsk : skippedFile cfg f
  · refine ⟨acc.st, ?_, ?_⟩
    · rw [processFile_skipped cfg collab acc f hsk]
    · intro k _; exact ⟨rfl, rfl⟩
  have h1 : ¬has_ignore_folder cfg (rootDir cfg f) = true := fun hh => hsk (Or.inl hh)
  have h2 : ¬is_supported_file cfg (filePath cfg f) (some f.content) = false :=
    fun hh => hsk (Or.inr (Or.inl hh))
  have h3 : ¬(countSep (pyReplace cfg.folder_path (filePath cfg f)) : Int) > cfg.depth :=
    fun hh => hsk (Or.inr (Or.inr hh))
  have h2t : is_supported_file cfg (filePath cfg f) (some f.content) = true := by
    revert h2; cases is_supported_file cfg (filePath cfg f) (some f.content) <;> simp
  have hplain : is_plain_text (some f.content) = true := is_supported_plain h2t
  have hpe : processFile cfg collab acc f = processEligible cfg collab acc f := by
    simp [processFile, h1, h2, h3]
  have hread : read_text collab (filePath cfg f) (some f.content) = Except.ok f.content :=
    read_text_plain collab (filePath cfg f) hplain
  rcases hg with hg | ⟨e, he, hmod, hsome⟩ | ⟨hn1, hn2, hc⟩
  · exact absurd hg hsk
  · refine ⟨acc.st, ?_, ?_⟩
    · rw [hpe]
      unfold processEligible
      rw [ensureRegistered_of_isSome hsome]
      simp only [he]
      rw [if_pos hmod.symm]
    · intro k _; exact ⟨rfl, rfl⟩
  · have hreg := ensureRegistered_of_none hn2
    have hmnotmem : path_hash (relPath f) ∉ keysOf acc.st.menu := (alGet_eq_none_iff _ _).mp hn1
    have hinotmem : path_hash (relPath f) ∉ keysOf acc.st.indices := (alGet_eq_none_iff _ _).mp hn2
    by_cases h5 : f.mtime = (-1 : Int)
    · refine ⟨(ensureRegistered f acc.st), ?_, ?_⟩
      · rw [hpe]
        unfold processEligible
        rw [hreg]
        simp only [alGet_alSet_self]
        rw [if_pos h5]
      · intro k hk
        rw [hreg]
        exact ⟨alGet_alSet_ne _ _ hk, alGet_alSet_ne _ _ hk⟩
    · refine ⟨acc.st, ?_, ?_⟩
      · rw [hpe]
        unfold processEligible
        rw [hreg]
        simp only [alGet_alSet_self]
        rw [if_neg h5]
        simp only [hread]
        have hlen : f.content.length = 0 := by rw [hc]; rfl
        rw [if_pos hlen, alDel_alSet, alDel_alSet, alDel_alSet,
          alDel_of_notMem hmnotmem, alDel_of_notMem hinotmem]
      · intro k _; exact ⟨rfl, rfl⟩

/-- The relative paths of a traversal. -/
def rels (fs : List FsFile) : List Str := fs.map relPath

/-- Folding the walk over `Good` files is a no-op on tasks and flag. -/
theorem processFiles_good (cfg : Config) (collab : Collab) :
    ∀ (fs : List FsFile) (acc : PassAcc),
      (rels fs).Nodup →
      (∀ f ∈ fs, Good cfg f acc.st) →
      ∃ st2, processFiles cfg collab fs acc = Except.ok ⟨st2, acc.tasks, acc.update⟩ := by
  intro fs
  induction fs with
  | nil => intro acc _ _; exact ⟨acc.st, rfl⟩
  | cons f fs2 ih =>
    intro acc hnd hg
    obtain ⟨st2, hstep, hpres⟩ :=
      processFile_good cfg collab acc f (hg f (List.mem_cons_self f fs2))
    have hnd2 : (rels fs2).Nodup := by
      simp only [rels, List.map_cons, List.nodup_cons] at hnd
      exact hnd.2
    have hnotin : relPath f ∉ rels fs2 := by
      simp only [rels, List.map_cons, List.nodup_cons] at hnd
      exact hnd.1
    have hg2 : ∀ g ∈ fs2, Good cfg g (⟨st2, acc.tasks, acc.update⟩ : PassAcc).st := by
      intro g hgmem
      have hne : path_hash (relPath g) ≠ path_hash (relPath f) := by
        intro hh
        apply hnotin
        have : relPath g = relPath f := hh
        rw [← this]
        exact List.mem_map_of_mem relPath hgmem
      obtain ⟨hm, hi⟩ := hpres _ hne
      exact Good_stable (hg g (List.mem_cons_of_mem f hgmem)) hm (by rw [hi])
    obtain ⟨st3, hrest⟩ := ih ⟨st2, acc.tasks, acc.update⟩ hnd2 hg2
    refine ⟨st3, ?_⟩
    unfold processFiles
    rw [hstep]
    exact hrest

/-- The main invariant of one walk: starting from synced maps, the fold
never raises, keeps the maps synced, only touches the walked ContentIds,
leaves every task's indices record present, and renders every walked
file `Good`. -/
theorem processFiles_spec (cfg : Config) (collab : Collab) :
    ∀ (fs : List FsFile) (acc : PassAcc),
      keysEq acc.st →
      (rels fs).Nodup →
      (∀ t ∈ acc.tasks,
        (alGet t.path_hash acc.st.indices).isSome = true ∧ t.path_hash ∉ rels fs) →
      ∃ acc2, processFiles cfg collab fs acc = Except.ok acc2 ∧
        keysEq acc2.st ∧
        (∀ k, k ∉ rels fs →
          alGet k acc2.st.menu = alGet k acc.st.menu ∧
          alGet k acc2.st.indices = alGet k acc.st.indices) ∧
        (∀ t ∈ acc2.tasks, (alGet t.path_hash acc2.st.indices).isSome = true) ∧
        (∀ f ∈ fs, Good cfg f acc2.st) := by
  intro fs
  induction fs with
  | nil =>
    intro acc hke _ htasks
    refine ⟨acc, rfl, hke, ?_, ?_, ?_⟩
    · intro k _; exact ⟨rfl, rfl⟩
    · intro t ht; exact (htasks t ht).1
    · intro f hf; exact absurd hf (List.not_mem_nil f)
  | cons f fs2 ih =>
    intro acc hke hnd htasks
    obtain ⟨acc1, hstep, hke1, hpres1, hold1, hnew1, hgood1, _⟩ :=
      processFile_spec cfg collab acc f hke
    have hnd2 : (rels fs2).Nodup := by
      simp only [rels, List.map_cons, List.nodup_cons] at hnd
      exact hnd.2
    have hnotin : relPath f ∉ rels fs2 := by
      simp only [rels, List.map_cons, List.nodup_cons] at hnd
      exact hnd.1
    have htasks1 : ∀ t ∈ acc1.tasks,
        (alGet t.path_hash acc1.st.indices).isSome = true ∧ t.path_hash ∉ rels fs2 := by
      intro t ht
      rcases hnew1 t ht with ht0 | ⟨hph, hsome⟩
      · obtain ⟨hs0, hnr0⟩ := htasks t ht0
        have hne : t.path_hash ≠ path_hash (relPath f) := by
          intro hh
          apply hnr0
          rw [hh]
          exact List.mem_cons_self _ _
        obtain ⟨_, hi⟩ := hpres1 t.path_hash hne
        constructor
        · rw [hi]; exact hs0
        · intro hh; exact hnr0 (List.mem_cons_of_mem _ hh)
      · constructor
        · exact hsome
        · rw [hph]; exact hnotin
    obtain ⟨acc3, hrest, hke3, hpres3, htasks3, hgood3⟩ := ih acc1 hke1 hnd2 htasks1
    refine ⟨acc3, ?_, hke3, ?_, htasks3, ?_⟩
    · unfold processFiles
      rw [hstep]
      exact hrest
    · intro k hk
      have hk2 : k ∉ rels fs2 := by
        intro hh; exact hk (List.mem_cons_of_mem _ hh)
      have hkne : k ≠ path_hash (relPath f) := by
        intro hh
        apply hk
        rw [hh]
        exact List.mem_cons_self _ _
      obtain ⟨hm3, hi3⟩ := hpres3 k hk2
      obtain ⟨hm1, hi1⟩ := hpres1 k hkne
      exact ⟨hm3.trans hm1, hi3.trans hi1⟩
    · intro g hg
      rcases List.mem_cons.mp hg with rfl | hg2
      · obtain ⟨hm3, hi3⟩ := hpres3 (path_hash (relPath g)) hnotin
        exact Good_stable hgood1 hm3 (by rw [hi3])
      · exact hgood3 g hg2

/-- The sequential merge of task results only rewrites indices records
that already exist: the menu, the key list and key membership of the
indices, and `menu.json` on disk are untouched. -/
theorem saveFold_spec :
    ∀ (results : List TaskResult) (st : State) (disk : Disk),
      (∀ r ∈ results, (alGet r.path_hash st.indices).isSome = true) →
      (results.foldl save_embedding_data (st, disk)).1.menu = st.menu ∧
      keysOf (results.foldl save_embedding_data (st, disk)).1.indices = keysOf st.indices ∧
      (∀ k, (alGet k (results.foldl save_embedding_data (st, disk)).1.indices).isSome
          = (alGet k st.indices).isSome) ∧
      (results.foldl save_embedding_data (st, disk)).2.menuFile = disk.menuFile := by
  intro results
  induction results with
  | nil =>
    intro st disk _
    exact ⟨rfl, rfl, fun _ => rfl, rfl⟩
  | cons r rs ih =>
    intro st disk hall
    have hr := hall r (List.mem_cons_self r rs)
    have hmem : r.path_hash ∈ keysOf st.indices := (alGet_isSome_iff _ _).mp hr
    have hpoint : ∀ k,
        (alGet k (alSet r.path_hash ⟨r.summary, some r.index⟩ st.indices)).isSome
          = (alGet k st.indices).isSome := by
      intro k
      by_cases hk : k = r.path_hash
      · subst hk
        rw [alGet_alSet_self]
        rw [hr]
        rfl
      · rw [alGet_alSet_ne _ _ hk]
    have hstep : save_embedding_data (st, disk) r =
        (({ menu := st.menu,
            indices := alSet r.path_hash ⟨r.summary, some r.index⟩ st.indices } : State),
         ({ menuFile := disk.menuFile,
            artifacts := alSet r.path_hash ⟨[], r.index⟩ disk.artifacts } : Disk)) := rfl
    have hall2 : ∀ r2 ∈ rs,
        (alGet r2.path_hash
          ({ menu := st.menu,
             indices := alSet r.path_hash ⟨r.summary, some r.index⟩ st.indices } :
            State).indices).isSome = true := by
      intro r2 hr2
      show (alGet r2.path_hash (alSet r.path_hash ⟨r.summary, some r.index⟩ st.indices)).isSome
        = true
      rw [hpoint r2.path_hash]
      exact hall r2 (List.mem_cons_of_mem r hr2)
    obtain ⟨ihm, ihk, ihp, ihd⟩ := ih _ _ hall2
    rw [List.foldl_cons, hstep]
    refine ⟨ihm, ?_, ?_, ihd⟩
    · rw [ihk]
      exact keysOf_alSet_mem _ hmem
    · intro k
      rw [ihp k]
      exact hpoint k

theorem build_result_empty (cfg : Config) (collab : Collab) (fs : List FsFile) (st : State)
    (disk : Disk) {acc2 : PassAcc}
    (hpf : processFiles cfg collab fs ⟨st, [], false⟩ = Except.ok acc2)
    (hts : acc2.tasks = []) :
    build cfg collab fs st disk = Except.ok ⟨false, acc2.st, disk⟩ := by
  simp only [build, hpf]
  rw [if_pos hts]

theorem build_result_true (cfg : Config) (collab : Collab) (fs : List FsFile) (st : State)
    (disk : Disk) {acc2 : PassAcc}
    (hpf : processFiles cfg collab fs ⟨st, [], false⟩ = Except.ok acc2)
    (hts : ¬acc2.tasks = []) (hupd : acc2.update = true) :
    build cfg collab fs st disk =
      Except.ok ⟨true,
        ((acc2.tasks.map (run_embedding_task collab)).foldl save_embedding_data
          (acc2.st, disk)).1,
        { ((acc2.tasks.map (run_embedding_task collab)).foldl save_embedding_data
            (acc2.st, disk)).2 with
          menuFile := some ((acc2.tasks.map (run_embedding_task collab)).foldl
            save_embedding_data (acc2.st, disk)).1.menu }⟩ := by
  simp only [build, hpf]
  rw [if_neg hts, hupd, if_pos rfl]

theorem build_result_false (cfg : Config) (collab : Collab) (fs : List FsFile) (st : State)
    (disk : Disk) {acc2 : PassAcc}
    (hpf : processFiles cfg collab fs ⟨st, [], false⟩ = Except.ok acc2)
    (hts : ¬acc2.tasks = []) (hupd : acc2.update = false) :
    build cfg collab fs st disk =
      Except.ok ⟨false,
        ((acc2.tasks.map (run_embedding_task collab)).foldl save_embedding_data
          (acc2.st, disk)).1,
        ((acc2.tasks.map (run_embedding_task collab)).foldl save_embedding_data
          (acc2.st, disk)).2⟩ := by
  simp only [build, hpf]
  rw [if_neg hts, hupd]
  rw [if_neg (by simp : ¬false = true)]

/-- A full `build` pass from synced maps over a duplicate-free traversal
returns normally, keeps the maps synced, renders every walked file
`Good`, and leaves the menu lookups of every ContentId that the walk did
not visit unchanged. -/
theorem build_spec (cfg : Config) (collab : Collab) (fs : List FsFile) (st : State)
    (disk : Disk) (hke : keysEq st) (hnd : (rels fs).Nodup) :
    ∃ out, build cfg collab fs st disk = Except.ok out ∧
      keysEq out.st ∧
      (∀ f ∈ fs, Good cfg f out.st) ∧
      (∀ k, k ∉ rels fs → alGet k out.st.menu = alGet k st.menu) := by
  obtain ⟨acc2, hpf, hke2, hpres2, htasks2, hgood2⟩ :=
    processFiles_spec cfg collab fs ⟨st, [], false⟩ hke hnd
      (by intro t ht; exact absurd ht (List.not_mem_nil t))
  by_cases hts : acc2.tasks = []
  · refine ⟨⟨false, acc2.st, disk⟩, build_result_empty cfg collab fs st disk hpf hts,
      hke2, hgood2, ?_⟩
    intro k hk
    exact (hpres2 k hk).1
  · have hresults : ∀ r ∈ acc2.tasks.map (run_embedding_task collab),
        (alGet r.path_hash acc2.st.indices).isSome = true := by
      intro r hr
      obtain ⟨t, ht, rfl⟩ := List.mem_map.mp hr
      exact htasks2 t ht
    obtain ⟨hsm, hsk, hsp, hsd⟩ :=
      saveFold_spec (acc2.tasks.map (run_embedding_task collab)) acc2.st disk hresults
    have hkeM : keysEq ((acc2.tasks.map (run_embedding_task collab)).foldl
        save_embedding_data (acc2.st, disk)).1 := by
      show keysOf _ = keysOf _
      rw [hsm, hsk]
      exact hke2
    have hgoodM : ∀ f ∈ fs, Good cfg f ((acc2.tasks.map (run_embedding_task collab)).foldl
        save_embedding_data (acc2.st, disk)).1 := by
      intro f hf
      refine Good_stable (hgood2 f hf) ?_ ?_
      · rw [hsm]
      · rw [hsp]
    have hpresM : ∀ k, k ∉ rels fs →
        alGet k ((acc2.tasks.map (run_embedding_task collab)).foldl
          save_embedding_data (acc2.st, disk)).1.menu = alGet k st.menu := by
      intro k hk
      rw [hsm]
      exact (hpres2 k hk).1
    cases hupd : acc2.update with
    | true =>
      exact ⟨_, build_result_true cfg collab fs st disk hpf hts hupd, hkeM, hgoodM, hpresM⟩
    | false =>
      exact ⟨_, build_result_false cfg collab fs st disk hpf hts hupd, hkeM, hgoodM, hpresM⟩

/-- A `build` pass over `Good` files collects no tasks: it returns
`false` and leaves the disk untouched. -/
theorem build_good (cfg : Config) (collab : Collab) (fs : List FsFile) (st : State)
    (disk : Disk) (hnd : (rels fs).Nodup) (hg : ∀ f ∈ fs, Good cfg f st) :
    ∃ st2, build cfg collab fs st disk = Except.ok ⟨false, st2, disk⟩ := by
  obtain ⟨st2, hpf⟩ := processFiles_good cfg collab fs ⟨st, [], false⟩ hnd hg
  exact ⟨st2, build_result_empty cfg collab fs st disk hpf rfl⟩

/-- Once the dict was mutated mid-iteration, the very next iterator step
raises, whatever remains. -/
theorem loadGo_mutated (arts : List (Str × LoadedArt)) :
    ∀ (rest : List (Str × Entry)) (st : State),
      loadGo arts rest true st = Except.error PyErr.runtimeError := by
  intro rest st
  cases rest with
  | nil => rfl
  | cons p rest2 =>
    obtain ⟨ph, e⟩ := p
    rfl

/-- A `load_indices` loop that completes normally never deleted an
entry: the menu comes back unchanged and the indices keys are exactly
the processed menu keys. -/
theorem loadGo_ok (arts : List (Str × LoadedArt)) :
    ∀ (rest m : List (Str × Entry)) (idx : List (Str × IndexVal)) (st2 : State),
      (keysOf idx ++ rest.map Prod.fst).Nodup →
      loadGo arts rest false ⟨m, idx⟩ = Except.ok st2 →
      st2.menu = m ∧ keysOf st2.indices = keysOf idx ++ rest.map Prod.fst := by
  intro rest
  induction rest with
  | nil =>
    intro m idx st2 _ h
    unfold loadGo at h
    rw [if_neg (by simp : ¬false = true)] at h
    injection h with h
    subst h
    exact ⟨rfl, by simp⟩
  | cons p rest2 ih =>
    obtain ⟨ph, e⟩ := p
    intro m idx st2 hnd h
    unfold loadGo at h
    rw [if_neg (by simp : ¬false = true)] at h
    cases harts : alGet ph arts with
    | none =>
      simp only [harts] at h
      rw [loadGo_mutated] at h
      exact absurd h (by simp)
    | some a =>
      simp only [harts] at h
      have hphnot : ph ∉ keysOf idx := by
        have hdisj := List.disjoint_of_nodup_append hnd
        intro hmem
        exact hdisj hmem (List.mem_cons_self _ _)
      have hkeys : keysOf (alSet ph ⟨a.summary, some a.index⟩ idx) = keysOf idx ++ [ph] :=
        keysOf_alSet_notMem _ hphnot
      have hnd2 : (keysOf (alSet ph ⟨a.summary, some a.index⟩ idx) ++ rest2.map Prod.fst).Nodup := by
        rw [hkeys, List.append_assoc]
        exact hnd
      obtain ⟨h1, h2⟩ := ih m _ st2 hnd2 h
      refine ⟨h1, ?_⟩
      rw [h2, hkeys, List.append_assoc]
      rfl

theorem load_indices_ok_keys {disk : Disk} {menu : List (Str × Entry)} {st : State}
    (hnd : (keysOf menu).Nodup) (h : load_indices disk menu = Except.ok st) :
    st.menu = menu ∧ keysOf st.menu = keysOf st.indices := by
  have h2 : loadGo disk.artifacts menu false ⟨menu, []⟩ = Except.ok st := h
  obtain ⟨h1, hk⟩ := loadGo_ok disk.artifacts menu menu [] st (by simpa [keysOf] using hnd) h2
  refine ⟨h1, ?_⟩
  rw [h1, hk]
  simp [keysOf]

theorem engineNodes_error (st : State) :
    ∀ (phs : List Str) (e : PyErr), engineNodes st phs = Except.error e → e = PyErr.keyError := by
  intro phs
  induction phs with
  | nil => intro e h; exact absurd h (by simp [engineNodes])
  | cons ph rest ih =>
    intro e h
    unfold engineNodes at h
    cases hv : alGet ph st.indices with
    | none =>
      simp only [hv] at h
      injection h with h
      exact h.symm
    | some v =>
      simp only [hv] at h
      cases hidx : v.index with
      | none =>
        simp only [hidx] at h
        exact ih e h
      | some hdl =>
        simp only [hidx] at h
        cases hrest : engineNodes st rest with
        | error e2 =>
          rw [hrest] at h
          injection h with h
          exact h ▸ ih e2 hrest
        | ok ns =>
          rw [hrest] at h
          exact absurd h (by simp)

/-- The collaborator instance used by the concrete witnesses: every PDF
and spreadsheet reads empty, every index handle is `0`, every summary is
empty.  (The claims hold for every collaborator; witnesses just need one.) -/
def trivialCollab : Collab :=
  ⟨fun _ => Except.ok [], fun _ => Except.ok [], fun _ => 0, fun _ => []⟩

/-! ## The claims -/

/-- C1: in a build pass, a per-document text-extraction failure does not
abort the pass.  First conjunct: from synced maps, `build` always returns
normally — within one pass, every file that reaches `read_text` passed
`is_supported_file`, hence is UTF-8 text, so no extraction branch can
raise (the `ValueError` of `read_text` and the collaborator failure
branches are unreachable from `build`).  Second conjunct: the one
per-document failure mode that does occur — extraction yielding empty
text — removes exactly that document's registry entry and indices record
and continues with the task list untouched. -/
theorem c1_extraction_failure_isolated :
    (∀ (cfg : Config) (collab : Collab) (fs : List FsFile) (st : State) (disk : Disk),
      keysOf st.menu = keysOf st.indices → (rels fs).Nodup →
      ∃ out, build cfg collab fs st disk = Except.ok out) ∧
    (∀ (cfg : Config) (collab : Collab) (acc : PassAcc) (f : FsFile) (e : Entry)
      (iv : IndexVal),
      has_ignore_folder cfg (rootDir cfg f) = false →
      is_supported_file cfg (filePath cfg f) (some f.content) = true →
      ¬(countSep (pyReplace cfg.folder_path (filePath cfg f)) : Int) > cfg.depth →
      alGet (path_hash (relPath f)) acc.st.indices = some iv →
      alGet (path_hash (relPath f)) acc.st.menu = some e →
      ¬f.mtime = e.modified →
      f.content = [] →
      processFile cfg collab acc f =
        Except.ok ⟨⟨alDel (path_hash (relPath f)) acc.st.menu,
          alDel (path_hash (relPath f)) acc.st.indices⟩, acc.tasks, acc.update⟩) := by
  constructor
  · intro cfg collab fs st disk hke hnd
    obtain ⟨out, hb, _, _, _⟩ := build_spec cfg collab fs st disk hke hnd
    exact ⟨out, hb⟩
  · intro cfg collab acc f e iv h1 h2 h3 hiv he h5 h6
    have h1n : ¬has_ignore_folder cfg (rootDir cfg f) = true := by rw [h1]; simp
    have h2n : ¬is_supported_file cfg (filePath cfg f) (some f.content) = false := by
      rw [h2]; simp
    have hpe : processFile cfg collab acc f = processEligible cfg collab acc f := by
      simp [processFile, h1n, h2n, h3]
    have hplain : is_plain_text (some f.content) = true := is_supported_plain h2
    have hread : read_text collab (filePath cfg f) (some f.content) = Except.ok f.content :=
      read_text_plain collab (filePath cfg f) hplain
    have hsome : (alGet (path_hash (relPath f)) acc.st.indices).isSome = true := by
      rw [hiv]; rfl
    rw [hpe]
    unfold processEligible
    rw [ensureRegistered_of_isSome hsome]
    simp only [he]
    rw [if_neg h5]
    simp only [hread]
    have hlen : f.content.length = 0 := by rw [h6]; rfl
    rw [if_pos hlen, alDel_alSet]

def cfgW1 : Config := ⟨"/r".data, [".indices".data], [], 3, none⟩

def fW1 : FsFile := ⟨["e.txt".data], [], 6⟩

theorem c1_extraction_failure_isolated_witness :
    ∃ out, build cfgW1 trivialCollab [fW1] ⟨[], []⟩ ⟨some [], []⟩ = Except.ok out :=
  c1_extraction_failure_isolated.1 cfgW1 trivialCollab [fW1] ⟨[], []⟩ ⟨some [], []⟩
    rfl (by decide)

def cfgC2 : Config := ⟨"/r".data, [".indices".data], [], 3, some [".pdf".data]⟩

def pdfBytes : List Nat := [0x25, 0x50, 0x44, 0x46, 0xFF]

/-- C2: the spec requires binary (non-UTF-8) PDF/XLSX files in the
allow-list to be eligible and routed to their extension handler, and
`indexer.py` has those handlers wired into `read_text`; but
`is_supported_file` falls through to `is_plain_text` for every file, so a
non-UTF-8 `.pdf` in the allow-list is rejected and the PDF branch of
`read_text` is unreachable from `build`.  Evaluated at the failing
input: the allow-list admits `.pdf`, the bytes do not decode as UTF-8,
and `is_supported_file` returns `false`. -/
theorem c2_binary_pdf_rejected :
    utf8Decodable pdfBytes = false ∧
    type_allowed cfgC2 ("/r/doc.pdf").data = true ∧
    toLowerStr (splitext_ext ("/r/doc.pdf").data) = (".pdf").data ∧
    is_supported_file cfgC2 ("/r/doc.pdf").data (some pdfBytes) = false := by
  refine ⟨by decide, by decide, by decide, by decide⟩

def cfgC3 : Config := ⟨"/r".data, [".indices".data], [], 3, none⟩

def menuC3 : List (Str × Entry) := [(("a.txt").data, ⟨("a.txt").data, ("a.txt").data, 5⟩)]

def stC3 : State := ⟨menuC3, [(("a.txt").data, ⟨[], some 0⟩)]⟩

def diskC3 : Disk := ⟨some menuC3, [(("a.txt").data, ⟨[], 0⟩)]⟩

/-- C3 as stated is false: `build` only walks files that exist, so a
ContentId whose file was deleted is never revisited and its entry stays.
Concretely: state and `menu.json` hold the entry for `a.txt`, the
traversal is empty (the file is gone), and the pass returns `false`
leaving the entry in both the in-memory menu and the persisted
`menu.json`. -/
theorem c3_deleted_file_entry_persists_cex :
    build cfgC3 trivialCollab [] stC3 diskC3 = Except.ok ⟨false, stC3, diskC3⟩ ∧
    ("a.txt").data ∈ keysOf stC3.menu ∧
    diskC3.menuFile = some menuC3 := by
  refine ⟨rfl, by decide, rfl⟩

/-- C3 amended: a registry entry whose relative path is not among the
walked files survives a build pass unchanged (deletion of the source
file never removes its entry; entries are removed only when a rebuild of
a still-present file yields empty text, or during `load_indices`). -/
theorem c3_stale_entry_retained (cfg : Config) (collab : Collab) (fs : List FsFile)
    (st : State) (disk : Disk) (ph : Str)
    (hke : keysOf st.menu = keysOf st.indices) (hnd : (rels fs).Nodup)
    (hmem : ph ∈ keysOf st.menu) (hnot : ph ∉ rels fs) :
    ∃ out, build cfg collab fs st disk = Except.ok out ∧
      ph ∈ keysOf out.st.menu ∧ alGet ph out.st.menu = alGet ph st.menu := by
  obtain ⟨out, hb, _, _, hpres⟩ := build_spec cfg collab fs st disk hke hnd
  have hpk := hpres ph hnot
  refine ⟨out, hb, ?_, hpk⟩
  rw [← alGet_isSome_iff] at hmem ⊢
  rw [hpk]
  exact hmem

theorem c3_stale_entry_retained_witness :
    ∃ out, build cfgC3 trivialCollab [] stC3 diskC3 = Except.ok out ∧
      ("a.txt").data ∈ keysOf out.st.menu ∧
      alGet ("a.txt").data out.st.menu = alGet ("a.txt").data stC3.menu :=
  c3_stale_entry_retained cfgC3 trivialCollab [] stC3 diskC3 ("a.txt").data
    (by decide) (by decide) (by decide) (by decide)

def menuC4 : List (Str × Entry) := [(("h1").data, ⟨("a.bin").data, ("a.bin").data, 2⟩)]

/-- C4: the self-healing drop in `load_indices` is the clear intent of
lines 88–92, but `del self.menu[path_hash]` executes while `for
path_hash in self.menu` is iterating that same dict, so CPython raises
`RuntimeError("dictionary changed size during iteration")` on the next
iterator step: with any entry whose `data.json` is missing, load (and
hence construction) fails instead of healing.  First conjunct: the
failing input (one registry entry, no artifact on disk) raises; second
conjunct: when every artifact is present, load completes and fills
`self.indices`. -/
theorem c4_load_missing_artifact_raises :
    load_indices ⟨some menuC4, []⟩ menuC4 = Except.error PyErr.runtimeError ∧
    load_indices ⟨some menuC4, [(("h1").data, ⟨[], 9⟩)]⟩ menuC4 =
      Except.ok ⟨menuC4, [(("h1").data, ⟨[], some 9⟩)]⟩ := by
  refine ⟨rfl, rfl⟩

/-- C5: on an unchanged tree the second build pass returns `false` and
does not rewrite `menu.json` — the disk is exactly the disk the first
pass left, so the persisted registry is byte-identical. -/
theorem c5_build_idempotent_on_unchanged_tree (cfg : Config) (collab : Collab)
    (fs : List FsFile) (st : State) (disk : Disk) (out1 : BuildOut)
    (hnd : (rels fs).Nodup)
    (hke : keysOf st.menu = keysOf st.indices)
    (h1 : build cfg collab fs st disk = Except.ok out1) :
    ∃ out2, build cfg collab fs out1.st out1.disk = Except.ok out2 ∧
      out2.changed = false ∧ out2.disk = out1.disk := by
  obtain ⟨outA, hbA, hkeA, hgoodA, _⟩ := build_spec cfg collab fs st disk hke hnd
  rw [h1] at hbA
  injection hbA with hh
  subst hh
  obtain ⟨st2, hb2⟩ := build_good cfg collab fs out1.st out1.disk hnd hgoodA
  exact ⟨⟨false, st2, out1.disk⟩, hb2, rfl, rfl⟩

def cfgW5 : Config := ⟨"/r".data, [".indices".data], [], 3, none⟩

def fW5 : FsFile := ⟨[("a.txt").data], [104, 105], 7⟩

def outW5 : BuildOut :=
  ⟨true,
    ⟨[(("a.txt").data, ⟨("a.txt").data, ("a.txt").data, 7⟩)],
     [(("a.txt").data, ⟨[], some 0⟩)]⟩,
    ⟨some [(("a.txt").data, ⟨("a.txt").data, ("a.txt").data, 7⟩)],
     [(("a.txt").data, ⟨[], 0⟩)]⟩⟩

theorem c5_build_idempotent_on_unchanged_tree_witness :
    ∃ out2, build cfgW5 trivialCollab [fW5] outW5.st outW5.disk = Except.ok out2 ∧
      out2.changed = false ∧ out2.disk = outW5.disk :=
  c5_build_idempotent_on_unchanged_tree cfgW5 trivialCollab [fW5] ⟨[], []⟩ ⟨some [], []⟩
    outW5 (by decide) rfl rfl

def cfgC6 : Config := ⟨"/r".data, [".indices".data], [], 3, some [".pdf".data]⟩

/-- C6 as stated is false: `is_supported_file` tests
`file_extension not in self.types` with no case folding, so `.PDF` is
rejected when only `.pdf` is configured — even though the file is
otherwise eligible (UTF-8 text, no ignore pattern) and the extensions
agree up to letter case. -/
theorem c6_case_insensitive_cex :
    toLowerStr (splitext_ext ("/r/a.PDF").data) = (".pdf").data ∧
    is_plain_text (some [104]) = true ∧
    is_supported_file cfgC6 ("/r/a.PDF").data (some [104]) = false := by
  refine ⟨by decide, by decide, by decide⟩

/-- C6 amended: the allow-list gate is case-sensitive exact membership —
an extension not literally in the list is rejected, and for one
literally in the list the gate passes and eligibility reduces to the
ignore patterns and the plain-text test. -/
theorem c6_type_gate_case_sensitive :
    (∀ (cfg : Config) (ts : List Str) (fp : Str) (c : Option (List Nat)),
      cfg.types = some ts → splitext_ext fp ∉ ts →
      is_supported_file cfg fp c = false) ∧
    (∀ (cfg : Config) (ts : List Str) (fp : Str) (c : Option (List Nat)),
      cfg.types = some ts → splitext_ext fp ∈ ts →
      is_supported_file cfg fp c =
        (!(cfg.ignored_patterns.any fun p => wildMatch p (basename fp)) && is_plain_text c)) := by
  constructor
  · intro cfg ts fp c hts hnot
    have hta : type_allowed cfg fp = false := by
      simp only [type_allowed, hts]
      simp [hnot]
    unfold is_supported_file
    rw [hta, if_pos rfl]
  · intro cfg ts fp c hts hmem
    have hta : type_allowed cfg fp = true := by
      simp only [type_allowed, hts]
      simp [hmem]
    cases hp : (cfg.ignored_patterns.any fun p => wildMatch p (basename fp)) with
    | true => simp [is_supported_file, hta, hp]
    | false => simp [is_supported_file, hta, hp]

theorem c6_type_gate_case_sensitive_witness :
    is_supported_file cfgC6 ("/r/a.txt").data (some [104]) = false :=
  c6_type_gate_case_sensitive.1 cfgC6 [".pdf".data] ("/r/a.txt").data (some [104])
    rfl (by decide)

def cfgC7 : Config := ⟨"/a".data, [".indices".data], [], 1, none⟩

def fC7 : FsFile := ⟨["a".data, ("x.txt").data], [104, 105], 5⟩

def outC7 : BuildOut :=
  ⟨true,
    ⟨[(("a/x.txt").data, ⟨("x.txt").data, ("a/x.txt").data, 5⟩)],
     [(("a/x.txt").data, ⟨[], some 0⟩)]⟩,
    ⟨some [(("a/x.txt").data, ⟨("x.txt").data, ("a/x.txt").data, 5⟩)],
     [(("a/x.txt").data, ⟨[], 0⟩)]⟩⟩

/-- C7 as stated is false: the depth is computed by
`file_path.replace(self.folder_path, "")`, which deletes EVERY
occurrence of the root path string, not just the leading one.  For root
`/a` and file `/a/a/x.txt`, the path below the root, `/a/x.txt`, holds 2
separators and the configured maximum is 1 — the claim says the file is
never indexed — yet the code computes `"/x.txt"` (1 separator) and
indexes it: the pass returns `true` and registers its ContentId. -/
theorem c7_depth_bound_cex :
    (specSepCountBelowRoot cfgC7.folder_path (filePath cfgC7 fC7) : Int) > cfgC7.depth ∧
    build cfgC7 trivialCollab [fC7] ⟨[], []⟩ ⟨some [], []⟩ = Except.ok outC7 ∧
    outC7.changed = true ∧
    path_hash (relPath fC7) ∈ keysOf outC7.st.menu := by
  refine ⟨by decide, rfl, rfl, by decide⟩

/-- C7 amended: with the depth measured as the code measures it — count
the separators left after deleting every occurrence of the root path
string from the absolute path (which equals the separator count of the
root-stripped path whenever the root string does not reoccur inside it)
— the bound holds in both directions: a file over the bound is never
indexed (the pass is a no-op on it), and an otherwise eligible fresh
file within the bound is indexed, its entry recording its modification
time, and `menu.json` rewritten. -/
theorem c7_depth_bound_amended :
    (∀ (cfg : Config) (collab : Collab) (f : FsFile) (st : State) (disk : Disk),
      (countSep (pyReplace cfg.folder_path (filePath cfg f)) : Int) > cfg.depth →
      build cfg collab [f] st disk = Except.ok ⟨false, st, disk⟩) ∧
    (∀ (cfg : Config) (collab : Collab) (f : FsFile) (st : State) (disk : Disk),
      has_ignore_folder cfg (rootDir cfg f) = false →
      is_supported_file cfg (filePath cfg f) (some f.content) = true →
      ¬(countSep (pyReplace cfg.folder_path (filePath cfg f)) : Int) > cfg.depth →
      alGet (path_hash (relPath f)) st.menu = none →
      alGet (path_hash (relPath f)) st.indices = none →
      ¬f.mtime = -1 → ¬f.content = [] →
      ∃ out, build cfg collab [f] st disk = Except.ok out ∧ out.changed = true ∧
        alGet (path_hash (relPath f)) out.st.menu =
          some ⟨f.relParts.getLastD [], relPath f, f.mtime⟩ ∧
        out.disk.menuFile = some out.st.menu) := by
  constructor
  · intro cfg collab f st disk h3
    have hstep : processFile cfg collab ⟨st, [], false⟩ f = Except.ok ⟨st, [], false⟩ :=
      processFile_skipped cfg collab ⟨st, [], false⟩ f (Or.inr (Or.inr h3))
    have hpf : processFiles cfg collab [f] ⟨st, [], false⟩ = Except.ok ⟨st, [], false⟩ := by
      simp only [processFiles, hstep]
    exact build_result_empty cfg collab [f] st disk hpf rfl
  · intro cfg collab f st disk h1 h2 h3 hmn hin h5 h6
    have h1n : ¬has_ignore_folder cfg (rootDir cfg f) = true := by rw [h1]; simp
    have h2n : ¬is_supported_file cfg (filePath cfg f) (some f.content) = false := by
      rw [h2]; simp
    have hpe : processFile cfg collab ⟨st, [], false⟩ f =
        processEligible cfg collab ⟨st, [], false⟩ f := by
      simp [processFile, h1n, h2n, h3]
    have hplain : is_plain_text (some f.content) = true := is_supported_plain h2
    have hread : read_text collab (filePath cfg f) (some f.content) = Except.ok f.content :=
      read_text_plain collab (filePath cfg f) hplain
    have hreg := ensureRegistered_of_none hin
    have h6len : ¬f.content.length = 0 := fun hh => h6 (List.length_eq_zero.mp hh)
    have hstep : processFile cfg collab ⟨st, [], false⟩ f =
        Except.ok ⟨⟨alSet (path_hash (relPath f))
            ⟨f.relParts.getLastD [], relPath f, f.mtime⟩
            (alSet (path_hash (relPath f)) ⟨f.relParts.getLastD [], relPath f, -1⟩ st.menu),
          alSet (path_hash (relPath f)) ⟨[], none⟩ st.indices⟩,
          [⟨path_hash (relPath f), f.relParts.getLastD [], relPath f, f.content⟩], true⟩ := by
      rw [hpe]
      unfold processEligible
      rw [hreg]
      simp only [alGet_alSet_self]
      rw [if_neg h5]
      simp only [hread]
      rw [if_neg h6len]
      rfl
    have hpf : processFiles cfg collab [f] ⟨st, [], false⟩ =
        Except.ok ⟨⟨alSet (path_hash (relPath f))
            ⟨f.relParts.getLastD [], relPath f, f.mtime⟩
            (alSet (path_hash (relPath f)) ⟨f.relParts.getLastD [], relPath f, -1⟩ st.menu),
          alSet (path_hash (relPath f)) ⟨[], none⟩ st.indices⟩,
          [⟨path_hash (relPath f), f.relParts.getLastD [], relPath f, f.content⟩], true⟩ := by
      simp only [processFiles, hstep]
    refine ⟨_, build_result_true cfg collab [f] st disk hpf (List.cons_ne_nil _ _) rfl,
      rfl, ?_, rfl⟩
    exact alGet_alSet_self _ _ _

def cfgW7 : Config := ⟨"/r".data, [".indices".data], [], 3, none⟩

def fW7 : FsFile := ⟨[("b.txt").data], [104], 4⟩

theorem c7_depth_bound_amended_witness :
    ∃ out, build cfgW7 trivialCollab [fW7] ⟨[], []⟩ ⟨some [], []⟩ = Except.ok out ∧
      out.changed = true ∧
      alGet (path_hash (relPath fW7)) out.st.menu =
        some ⟨fW7.relParts.getLastD [], relPath fW7, fW7.mtime⟩ ∧
      out.disk.menuFile = some out.st.menu :=
  c7_depth_bound_amended.2 cfgW7 trivialCollab fW7 ⟨[], []⟩ ⟨some [], []⟩
    (by decide) (by decide) (by decide) rfl rfl (by decide) (by decide)

def cfgC8 : Config := ⟨"/r".data, [".indices".data], ["*.tmp".data], 3, none⟩

def fC8 : FsFile := ⟨[("a\n.tmp").data], [104], 2⟩

def outC8 : BuildOut :=
  ⟨true,
    ⟨[(("a\n.tmp").data, ⟨("a\n.tmp").data, ("a\n.tmp").data, 2⟩)],
     [(("a\n.tmp").data, ⟨[], some 0⟩)]⟩,
    ⟨some [(("a\n.tmp").data, ⟨("a\n.tmp").data, ("a\n.tmp").data, 2⟩)],
     [(("a\n.tmp").data, ⟨[], 0⟩)]⟩⟩

/-- C8 as stated is false on newline-containing names, which are legal
on POSIX.  `.` in the compiled regex does not cross `'\n'` and `$`
matches before a trailing `'\n'`, so against the pattern `*.tmp`: the
name `a\n.tmp` is a full match in the claim's sense (`*` spanning any
run of characters) yet the otherwise eligible file is indexed — the
pass returns `true` and registers its ContentId; and the name
`draft.tmp\n` is only a partial match in the claim's sense yet the
code's pattern (whose `$` accepts the trailing newline) fires and
`is_supported_file` rejects the file. -/
theorem c8_ignore_pattern_cex :
    specWildMatch ("*.tmp").data (basename (filePath cfgC8 fC8)) = true ∧
    build cfgC8 trivialCollab [fC8] ⟨[], []⟩ ⟨some [], []⟩ = Except.ok outC8 ∧
    outC8.changed = true ∧
    path_hash (relPath fC8) ∈ keysOf outC8.st.menu ∧
    specWildMatch ("*.tmp").data (basename (("/r/draft.tmp\n").data)) = false ∧
    wildMatch ("*.tmp").data (basename (("/r/draft.tmp\n").data)) = true ∧
    is_supported_file cfgC8 (("/r/draft.tmp\n").data) (some [104]) = false := by
  refine ⟨by decide, rfl, rfl, by decide, by decide, by decide, by decide⟩

/-- C8 amended: matching is by the compiled anchored regex — a base
name fully matched in that sense (case-sensitively, `*` matching any
run of non-newline characters, with a single trailing newline also
accepted by the `$` anchor; on newline-free names this coincides with
the claim's "any run of characters, exact full-name match") makes
`is_supported_file` false whatever the allow-list says, so the walk
skips the file wholesale; and when no pattern so matches the base name,
the pattern rule does not fire — eligibility is exactly the allow-list
gate together with the plain-text test. -/
theorem c8_ignore_pattern_excludes :
    (∀ (cfg : Config) (fp : Str) (c : Option (List Nat)) (p : Str),
      p ∈ cfg.ignored_patterns → wildMatch p (basename fp) = true →
      is_supported_file cfg fp c = false) ∧
    (∀ (cfg : Config) (collab : Collab) (acc : PassAcc) (f : FsFile) (p : Str),
      p ∈ cfg.ignored_patterns → wildMatch p (basename (filePath cfg f)) = true →
      processFile cfg collab acc f = Except.ok acc) ∧
    (∀ (cfg : Config) (fp : Str) (c : Option (List Nat)),
      (∀ p ∈ cfg.ignored_patterns, wildMatch p (basename fp) = false) →
      is_supported_file cfg fp c = (type_allowed cfg fp && is_plain_text c)) := by
  refine ⟨?_, ?_, ?_⟩
  · intro cfg fp c p hp hm
    have hany : (cfg.ignored_patterns.any fun q => wildMatch q (basename fp)) = true :=
      List.any_eq_true.mpr ⟨p, hp, hm⟩
    unfold is_supported_file
    by_cases hta : type_allowed cfg fp = false
    · rw [if_pos hta]
    · rw [if_neg hta, if_pos hany]
  · intro cfg collab acc f p hp hm
    have hsup : is_supported_file cfg (filePath cfg f) (some f.content) = false := by
      have hany : (cfg.ignored_patterns.any
          fun q => wildMatch q (basename (filePath cfg f))) = true :=
        List.any_eq_true.mpr ⟨p, hp, hm⟩
      unfold is_supported_file
      by_cases hta : type_allowed cfg (filePath cfg f) = false
      · rw [if_pos hta]
      · rw [if_neg hta, if_pos hany]
    exact processFile_skipped cfg collab acc f (Or.inr (Or.inl hsup))
  · intro cfg fp c hnone
    have hany : (cfg.ignored_patterns.any fun q => wildMatch q (basename fp)) = false := by
      rw [List.any_eq_false]
      intro p hp
      rw [hnone p hp]
      simp
    unfold is_supported_file
    cases hta : type_allowed cfg fp with
    | false =>
      rw [if_pos rfl]
      simp
    | true =>
      rw [if_neg (by simp : ¬(true = false)), if_neg (by rw [hany]; simp)]
      simp

def cfgW8 : Config := ⟨"/r".data, [".indices".data], ["*.tmp".data], 3, none⟩

def fW8 : FsFile := ⟨[("draft.tmp").data], [104], 1⟩

theorem c8_ignore_pattern_excludes_witness :
    processFile cfgW8 trivialCollab ⟨⟨[], []⟩, [], false⟩ fW8 =
      Except.ok ⟨⟨[], []⟩, [], false⟩ :=
  c8_ignore_pattern_excludes.2.1 cfgW8 trivialCollab ⟨⟨[], []⟩, [], false⟩ fW8
    ("*.tmp").data (by decide) (by decide)

/-- C9: `get_file_engine` raises the "File not indexed" `ValueError`
exactly when the hash of the given relative path is absent from
`self.menu`; on a registered path (with the menu/indices key-sync
invariant of construction and build) it returns an engine whose nodes
are all labeled with that single file's ContentId. -/
theorem c9_get_file_engine_scoped (st : State) (fp : Str) :
    (alGet (path_hash fp) st.menu = none ↔
      get_file_engine st fp = Except.error PyErr.valueError) ∧
    (keysOf st.menu = keysOf st.indices →
      (alGet (path_hash fp) st.menu).isSome = true →
      ∃ nodes, get_file_engine st fp = Except.ok nodes ∧
        ∀ n ∈ nodes, n.index_id = path_hash fp) := by
  constructor
  · constructor
    · intro h
      unfold get_file_engine
      rw [if_pos (by rw [h]; rfl)]
    · intro h
      cases hv : alGet (path_hash fp) st.menu with
      | none => rfl
      | some e =>
        exfalso
        unfold get_file_engine at h
        rw [if_neg (by rw [hv]; simp)] at h
        have hke := engineNodes_error st ([fp].map path_hash) PyErr.valueError h
        exact PyErr.noConfusion hke
  · intro hke hs
    obtain ⟨e, hv⟩ : ∃ e, alGet (path_hash fp) st.menu = some e := by
      cases hv : alGet (path_hash fp) st.menu
      · rw [hv] at hs; simp at hs
      · exact ⟨_, rfl⟩
    have hsi : (alGet (path_hash fp) st.indices).isSome = true := by
      rw [alGet_isSome_iff] at hs ⊢
      rw [← hke]
      exact hs
    obtain ⟨v, hvi⟩ : ∃ v, alGet (path_hash fp) st.indices = some v := by
      cases hh : alGet (path_hash fp) st.indices
      · rw [hh] at hsi; simp at hsi
      · exact ⟨_, rfl⟩
    have hne : ¬((alGet (path_hash fp) st.menu).isNone = true) := by
      rw [hv]; simp
    cases hidx : v.index with
    | none =>
      refine ⟨[], ?_, by simp⟩
      unfold get_file_engine
      rw [if_neg hne]
      show engineNodes st [path_hash fp] = Except.ok []
      unfold engineNodes
      simp only [hvi, hidx]
      rfl
    | some hdl =>
      refine ⟨[⟨path_hash fp, v.summary, hdl⟩], ?_, ?_⟩
      · unfold get_file_engine
        rw [if_neg hne]
        show engineNodes st [path_hash fp] = Except.ok [⟨path_hash fp, v.summary, hdl⟩]
        unfold engineNodes
        simp only [hvi, hidx]
        rfl
      · intro n hn
        rcases List.mem_singleton.mp hn with rfl
        rfl

def stW9 : State :=
  ⟨[(("a.txt").data, ⟨("a.txt").data, ("a.txt").data, 1⟩)],
   [(("a.txt").data, ⟨[], some 3⟩)]⟩

theorem c9_get_file_engine_scoped_witness :
    ∃ nodes, get_file_engine stW9 ("a.txt").data = Except.ok nodes ∧
      ∀ n ∈ nodes, n.index_id = path_hash ("a.txt").data :=
  (c9_get_file_engine_scoped stW9 ("a.txt").data).2 rfl (by decide)

/-- C10: after a construction that completes normally, and after every
`build` call that returns normally (from a synced state, over a
duplicate-free traversal), `self.menu` and `self.indices` hold exactly
the same keys. -/
theorem c10_menu_indices_keys_sync :
    (∀ (disk : Disk) (menu : List (Str × Entry)) (st : State),
      (keysOf menu).Nodup → load_indices disk menu = Except.ok st →
      keysOf st.menu = keysOf st.indices) ∧
    (∀ (cfg : Config) (collab : Collab) (fs : List FsFile) (st : State) (disk : Disk)
      (out : BuildOut),
      keysOf st.menu = keysOf st.indices → (rels fs).Nodup →
      build cfg collab fs st disk = Except.ok out →
      keysOf out.st.menu = keysOf out.st.indices) := by
  constructor
  · intro disk menu st hnd h
    exact (load_indices_ok_keys hnd h).2
  · intro cfg collab fs st disk out hke hnd hb
    obtain ⟨out2, hb2, hke2, _, _⟩ := build_spec cfg collab fs st disk hke hnd
    rw [hb] at hb2
    injection hb2 with hh
    rw [← hh] at hke2
    exact hke2

def menuW10 : List (Str × Entry) := [(("a.txt").data, ⟨("a.txt").data, ("a.txt").data, 1⟩)]

def diskW10 : Disk := ⟨some menuW10, [(("a.txt").data, ⟨[], 3⟩)]⟩

def stW10 : State := ⟨menuW10, [(("a.txt").data, ⟨[], some 3⟩)]⟩

theorem c10_menu_indices_keys_sync_witness :
    keysOf stW10.menu = keysOf stW10.indices :=
  c10_menu_indices_keys_sync.1 diskW10 menuW10 stW10 (by decide) rfl
